import Mathlib

/-!
Verification development for the catalog repository's indexing and retrieval
engine (`indexer.py` builds a TF-IDF weighted inverted index; `processor.py`
answers ranked keyword queries against the loaded index).

The embedding follows the source code:
* `indexer.py` feeds the corpus to sklearn's `TfidfVectorizer(stop_words='english')`
  (defaults: lowercase, token pattern of two-or-more word characters, smooth IDF
  `ln((1+N)/(1+df)) + 1` on raw counts, L2 row normalization) and keeps, per term,
  the documents whose matrix entry is strictly positive.
* `processor.py` (`get_top_k_results`) lowercases and whitespace-splits the query,
  accumulates posting weights per document into an insertion-ordered dictionary,
  stably sorts by score descending, and returns the Python slice `sorted_urls[:k]`.

Machine floats are modelled by real numbers; character-level operations are
modelled on the ASCII range.
-/

namespace Catalog

/-- Word character of the vectorizer's token pattern (regex `\w` on the ASCII
range): letters, digits, or underscore. -/
def wordChar (c : Char) : Bool := c.isAlphanum || c = '_'

/-- ASCII whitespace recognized by Python's `str.split()` with no argument. -/
def pyWhitespace (c : Char) : Bool :=
  c = ' ' || c = '\t' || c = '\n' || c = '\r' || c = '\x0b' || c = '\x0c'

/-- Helper for `runs`: scan the characters, growing the current run `acc`
(kept reversed) while the predicate holds, and emit it when it breaks. -/
def runsAux (p : Char → Bool) : List Char → List Char → List (List Char)
  | [], acc => if acc.isEmpty then [] else [acc.reverse]
  | c :: cs, acc =>
    if p c then runsAux p cs (c :: acc)
    else if acc.isEmpty then runsAux p cs []
    else acc.reverse :: runsAux p cs []

/-- Maximal runs of characters satisfying `p`, in order.  Both tokenizers in
the system (regex word-character runs, whitespace splitting) are instances. -/
def runs (p : Char → Bool) (l : List Char) : List (List Char) := runsAux p l []

/-- Scikit-learn's frozen English stop word list (the Glasgow IR list), used by
`TfidfVectorizer(stop_words='english')` in `index_data`. -/
def englishStopWords : List String :=
  ["a", "about", "above", "across", "after", "afterwards", "again", "against",
   "all", "almost", "alone", "along", "already", "also", "although", "always",
   "am", "among", "amongst", "amoungst", "amount", "an", "and", "another",
   "any", "anyhow", "anyone", "anything", "anyway", "anywhere", "are",
   "around", "as", "at", "back", "be", "became", "because", "become",
   "becomes", "becoming", "been", "before", "beforehand", "behind", "being",
   "below", "beside", "besides", "between", "beyond", "bill", "both",
   "bottom", "but", "by", "call", "can", "cannot", "cant", "co", "con",
   "could", "couldnt", "cry", "de", "describe", "detail", "do", "done",
   "down", "due", "during", "each", "eg", "eight", "either", "eleven",
   "else", "elsewhere", "empty", "enough", "etc", "even", "ever", "every",
   "everyone", "everything", "everywhere", "except", "few", "fifteen",
   "fifty", "fill", "find", "fire", "first", "five", "for", "former",
   "formerly", "forty", "found", "four", "from", "front", "full", "further",
   "get", "give", "go", "had", "has", "hasnt", "have", "he", "hence", "her",
   "here", "hereafter", "hereby", "herein", "hereupon", "hers", "herself",
   "him", "himself", "his", "how", "however", "hundred", "i", "ie", "if",
   "in", "inc", "indeed", "interest", "into", "is", "it", "its", "itself",
   "keep", "last", "latter", "latterly", "least", "less", "ltd", "made",
   "many", "may", "me", "meanwhile", "might", "mill", "mine", "more",
   "moreover", "most", "mostly", "move", "much", "must", "my", "myself",
   "name", "namely", "neither", "never", "nevertheless", "next", "nine",
   "no", "nobody", "none", "noone", "nor", "not", "nothing", "now",
   "nowhere", "of", "off", "often", "on", "once", "one", "only", "onto",
   "or", "other", "others", "otherwise", "our", "ours", "ourselves", "out",
   "over", "own", "part", "per", "perhaps", "please", "put", "rather", "re",
   "same", "see", "seem", "seemed", "seeming", "seems", "serious", "several",
   "she", "should", "show", "side", "since", "sincere", "six", "sixty",
   "so", "some", "somehow", "someone", "something", "sometime", "sometimes",
   "somewhere", "still", "such", "system", "take", "ten", "than", "that",
   "the", "their", "them", "themselves", "then", "thence", "there",
   "thereafter", "thereby", "therefore", "therein", "thereupon", "these",
   "they", "thick", "thin", "third", "this", "those", "though", "three",
   "through", "throughout", "thru", "thus", "to", "together", "too", "top",
   "toward", "towards", "twelve", "twenty", "two", "un", "under", "until",
   "up", "upon", "us", "very", "via", "was", "we", "well", "were", "what",
   "whatever", "when", "whence", "whenever", "where", "whereafter",
   "whereas", "whereby", "wherein", "whereupon", "wherever", "whether",
   "which", "while", "whither", "who", "whoever", "whole", "whom", "whose",
   "why", "will", "with", "within", "without", "would", "yet", "you",
   "your", "yours", "yourself", "yourselves"]

/-- Vectorizer tokenization: lowercase the text, take maximal word-character
runs, keep only tokens of length at least two (regex `\b\w\w+\b`). -/
def docTokens (s : String) : List String :=
  ((runs wordChar (s.toList.map Char.toLower)).filter
    (fun r => 2 ≤ r.length)).map (fun r => String.mk r)

/-- Document terms: tokenization followed by the English stop word filter. -/
def docTerms (s : String) : List String :=
  (docTokens s).filter (fun t => !(englishStopWords.contains t))

/-- A loaded corpus: insertion-ordered association list from document key to
text, as produced by `load_data` (a Python dict). -/
abbrev Corpus := List (String × String)

/-- A loaded (or built) inverted index: term to posting list, a posting list
being an insertion-ordered association list from document key to weight. -/
abbrev InvIndex (α : Type) := List (String × List (String × α))

/-- Keys of a Python dictionary modelled as an association list. -/
def dictKeys {σ : Type} (l : List (String × σ)) : List String := l.map Prod.fst

/-- Python dictionary access: the value at the first (unique) matching key. -/
def dictGet {σ : Type} (key : String) : List (String × σ) → Option σ
  | [] => none
  | e :: es => if e.1 = key then some e.2 else dictGet key es

/-- The corpus materialized by `load_data` always has distinct document keys
(it is a Python dict). -/
abbrev keysNodup (c : Corpus) : Prop := (c.map Prod.fst).Nodup

/-- Strict lexicographic comparison of character lists by code point, the
ordering Python uses on strings. -/
def strLtb : List Char → List Char → Bool
  | [], [] => false
  | [], _ :: _ => true
  | _ :: _, [] => false
  | c :: cs, d :: ds => if c < d then true else if d < c then false else strLtb cs ds

/-- Non-strict lexicographic comparison of strings by code point. -/
def strLeb (a b : String) : Bool := !(strLtb b.toList a.toList)

/-- Ascending insertion into a sorted list, used to model the lexicographic
ordering of the vectorizer's feature names. -/
def insertAsc (x : String) : List String → List String
  | [] => [x]
  | y :: ys => if strLeb x y then x :: y :: ys else y :: insertAsc x ys

/-- Lexicographic (code point) sort of the vocabulary, as in
`vectorizer.get_feature_names_out()`. -/
def sortAsc : List String → List String
  | [] => []
  | x :: xs => insertAsc x (sortAsc xs)

/-- The vocabulary: distinct terms over the whole corpus, sorted
lexicographically (the vectorizer's feature names). -/
def vocab (c : Corpus) : List String :=
  sortAsc ((c.map (fun p => docTerms p.2)).flatten.dedup)

/-- Document frequency of a term: number of corpus documents containing it. -/
def dfCount (c : Corpus) (t : String) : Nat :=
  c.countP (fun p => (docTerms p.2).contains t)

noncomputable section

/-- Smoothed inverse document frequency used by the vectorizer
(`smooth_idf=True`): `ln((1 + N) / (1 + df(t))) + 1` with `N` the document
count. -/
def idfOf (c : Corpus) (t : String) : ℝ :=
  Real.log ((1 + (c.length : ℝ)) / (1 + (dfCount c t : ℝ))) + 1

/-- Raw TF-IDF weight of term `t` for a document with the given text:
raw term count times smoothed IDF. -/
def rawW (c : Corpus) (t : String) (text : String) : ℝ :=
  ((docTerms text).count t : ℝ) * idfOf c t

/-- Euclidean norm of a document's raw weight row over the whole vocabulary
(the vectorizer's `norm='l2'` row normalization). -/
def rowNormOf (c : Corpus) (text : String) : ℝ :=
  Real.sqrt (((vocab c).map (fun t => rawW c t text ^ 2)).sum)

/-- Normalized TF-IDF weight actually stored in the matrix: the raw weight
divided by the row norm (an all-zero row stays all-zero: `0 / 0 = 0`). -/
def wOf (c : Corpus) (t : String) (text : String) : ℝ :=
  rawW c t text / rowNormOf c text

/-- Posting list built by `index_data` for one term: documents in corpus
order whose matrix entry is strictly positive, with that entry. -/
def postingOf (c : Corpus) (t : String) : List (String × ℝ) :=
  c.filterMap (fun p => if 0 < wOf c t p.2 then some (p.1, wOf c t p.2) else none)

/-- The inverted index built by `index_data`: one key per feature name, in
feature order, each mapped to its posting list. -/
def invertedIndex (c : Corpus) : InvIndex ℝ :=
  (vocab c).map (fun t => (t, postingOf c t))

/-- Behaviour of `index_data` as observed by its caller: the vectorizer
raises `ValueError: empty vocabulary; perhaps the documents only contain stop
words` when no term survives, otherwise the inverted index is produced. -/
def index_data (c : Corpus) : Except String (InvIndex ℝ) :=
  if vocab c = [] then
    Except.error "empty vocabulary; perhaps the documents only contain stop words"
  else Except.ok (invertedIndex c)

end

/-- Query tokenization in `get_top_k_results`: `query.lower().split()`, that
is lowercase then split on whitespace runs. -/
def queryTerms (q : String) : List String :=
  (runs (fun c => !pyWhitespace c) (q.toList.map Char.toLower)).map
    (fun r => String.mk r)

/-- One accumulator update of `get_top_k_results`: add `w` to the document's
running score if its key is present (keeping its dictionary position), else
append a fresh entry, as Python's `scores[url] += score` / `scores[url] = score`. -/
def addScore {α : Type} [Add α] (sc : List (String × α)) (url : String)
    (w : α) : List (String × α) :=
  if url ∈ dictKeys sc then
    sc.map (fun e => if e.1 = url then (e.1, e.2 + w) else e)
  else sc ++ [(url, w)]

/-- Inner loop of `get_top_k_results`: fold one posting list into the score
dictionary (`for url, score in data[term].items()`). -/
def postingFold {α : Type} [Add α] (sc : List (String × α))
    (p : List (String × α)) : List (String × α) :=
  p.foldl (fun sc2 e => addScore sc2 e.1 e.2) sc

/-- One iteration of the term loop of `get_top_k_results`: skip the token if
it is not an index key, else fold its posting list into the scores. -/
def termStep {α : Type} [Add α] (data : InvIndex α)
    (sc : List (String × α)) (t : String) : List (String × α) :=
  match dictGet t data with
  | some posting => postingFold sc posting
  | none => sc

/-- Score accumulation loop of `get_top_k_results`: for every query token in
order (duplicates included), if the token is an index key, fold its posting
list into the score dictionary. -/
def accumulate {α : Type} [Add α] (data : InvIndex α) (terms : List String) :
    List (String × α) :=
  terms.foldl (termStep data) []

/-- Stable descending insertion by score: the new element goes in front of
the first element whose score is less than or equal to its own. -/
def insertDesc {α : Type} [LinearOrder α] (x : String × α) :
    List (String × α) → List (String × α)
  | [] => [x]
  | y :: ys => if y.2 ≤ x.2 then x :: y :: ys else y :: insertDesc x ys

/-- Stable sort by score descending, extensionally the behaviour of Python's
`sorted(scores.items(), key=lambda item: item[1], reverse=True)`. -/
def sortDesc {α : Type} [LinearOrder α] : List (String × α) → List (String × α)
  | [] => []
  | x :: xs => insertDesc x (sortDesc xs)

/-- Python slice `l[:k]` for an `int` bound: the first `k` elements when
`k ≥ 0`, everything but the last `|k|` elements when `k < 0`. -/
def pySliceTo {σ : Type} (l : List σ) (k : Int) : List σ :=
  if k < 0 then l.take ((l.length : Int) + k).toNat else l.take k.toNat

/-- The query scorer `get_top_k_results(query, k)` of `processor.py`. -/
def get_top_k_results {α : Type} [LinearOrder α] [Add α] (data : InvIndex α)
    (query : String) (k : Int) : List (String × α) :=
  pySliceTo (sortDesc (accumulate data (queryTerms query))) k

/-- JSON values, the shape of the persisted index artifact written by
`json.dump` and read back by `json.load`; numbers are modelled by reals. -/
inductive Jval : Type where
  | jnull : Jval
  | jbool : Bool → Jval
  | jnum : ℝ → Jval
  | jstr : String → Jval
  | jarr : List Jval → Jval
  | jobj : List (String × Jval) → Jval

/-- Serialization of the inverted index performed by `json.dump`: the nested
term to document-key to weight structure becomes nested JSON objects. -/
def serializeIndex (idx : InvIndex ℝ) : Jval :=
  Jval.jobj (idx.map (fun e => (e.1, Jval.jobj (e.2.map
    (fun q => (q.1, Jval.jnum q.2))))))

/-- Read one posting list back from JSON object fields; anything that is not
a number is a malformed artifact. -/
def readPosting : List (String × Jval) → Except String (List (String × ℝ))
  | [] => Except.ok []
  | e :: es =>
    match e.2 with
    | Jval.jnum x => (readPosting es).map (fun rest => (e.1, x) :: rest)
    | _ => Except.error "malformed index artifact"

/-- Read the term-major mapping back from JSON object fields. -/
def readIndex : List (String × Jval) → Except String (InvIndex ℝ)
  | [] => Except.ok []
  | e :: es =>
    match e.2 with
    | Jval.jobj fields =>
      match readPosting fields with
      | Except.ok p => (readIndex es).map (fun rest => (e.1, p) :: rest)
      | Except.error msg => Except.error msg
    | _ => Except.error "malformed index artifact"

/-- Deserialization of the persisted artifact performed by `json.load` in
`processor.py`, reconstructing the term to document-key to weight mapping. -/
def deserializeIndex : Jval → Except String (InvIndex ℝ)
  | Jval.jobj fields => readIndex fields
  | _ => Except.error "malformed index artifact"

/-- Running score of a document in the accumulator dictionary (absent means
zero contribution so far). -/
def scoreOf {α : Type} [Zero α] (sc : List (String × α)) (u : String) : α :=
  (dictGet u sc).getD 0

/-- Total weight a posting list holds for one document key (summing every
entry with that key; posting lists from a JSON object have unique keys). -/
def entrySum {α : Type} [AddCommMonoid α] (p : List (String × α))
    (u : String) : α :=
  ((p.filter (fun e => e.1 = u)).map Prod.snd).sum

/-- Contribution of a single query token occurrence to a document's score:
the token's posting weight for that document, zero if the token is not an
index key. -/
def postingContrib {α : Type} [AddCommMonoid α] (data : InvIndex α)
    (t : String) (u : String) : α :=
  match dictGet t data with
  | some p => entrySum p u
  | none => 0

/-- Weight stored in a nested index structure for a (term, document) pair. -/
def lookupEntry {α : Type} (idx : InvIndex α) (t d : String) : Option α :=
  (dictGet t idx).bind (fun p => dictGet d p)

/-- Concatenate character lists with a single blank between them. -/
def joinChars : List (List Char) → List Char
  | [] => []
  | [w] => w
  | w :: ws => w ++ ' ' :: joinChars ws

/-- Join words into one blank-separated string. -/
def joinWords (ws : List String) : String :=
  String.mk (joinChars (ws.map String.toList))

/-- Two single-word documents, used as a concrete corpus: every raw weight
row has exactly one nonzero entry, so both stored weights normalize to 1. -/
def corpus2 : Corpus := [("doc1", "apple"), ("doc2", "banana")]

/-- The corpus of the specification's Scenario A. -/
def corpusA : Corpus := [("doc1", "apple banana"), ("doc2", "banana cherry")]

/-! ### Dictionary lemmas -/

theorem dictGet_eq_none {σ : Type} (key : String) (l : List (String × σ)) :
    dictGet key l = none ↔ key ∉ dictKeys l := by
  induction l with
  | nil => simp [dictGet, dictKeys]
  | cons e es ih =>
    simp only [dictGet, dictKeys, List.map_cons, List.mem_cons]
    by_cases h : e.1 = key
    · simp [h]
    · have h' : ¬ key = e.1 := fun hh => h hh.symm
      rw [if_neg h, ih]
      simp [dictKeys, h']

theorem dictGet_some_mem {σ : Type} {key : String} {v : σ}
    {l : List (String × σ)} (h : dictGet key l = some v) : (key, v) ∈ l := by
  induction l with
  | nil => simp [dictGet] at h
  | cons e es ih =>
    rw [dictGet] at h
    by_cases he : e.1 = key
    · rw [if_pos he] at h
      refine List.mem_cons.mpr (Or.inl ?_)
      obtain ⟨a, b⟩ := e
      obtain rfl : a = key := he
      obtain rfl : b = v := Option.some.inj h
      rfl
    · rw [if_neg he] at h
      exact List.mem_cons_of_mem _ (ih h)

theorem mem_dictKeys_iff {σ : Type} (key : String) (l : List (String × σ)) :
    key ∈ dictKeys l ↔ ∃ v, dictGet key l = some v := by
  induction l with
  | nil => simp [dictGet, dictKeys]
  | cons e es ih =>
    simp only [dictKeys, List.map_cons, List.mem_cons, dictGet]
    by_cases h : e.1 = key
    · simp [h]
    · have h' : ¬ key = e.1 := fun hh => h hh.symm
      simp only [if_neg h, h', false_or]
      exact ih

theorem dictGet_of_mem_nodup {σ : Type} {key : String} {v : σ}
    {l : List (String × σ)} (hnd : (dictKeys l).Nodup) (hm : (key, v) ∈ l) :
    dictGet key l = some v := by
  induction l with
  | nil => simp at hm
  | cons e es ih =>
    simp only [dictKeys, List.map_cons, List.nodup_cons] at hnd
    rcases List.mem_cons.mp hm with rfl | hm'
    · simp [dictGet]
    · rw [dictGet]
      by_cases he : e.1 = key
      · exfalso
        apply hnd.1
        rw [he]
        exact List.mem_map.mpr ⟨(key, v), hm', rfl⟩
      · rw [if_neg he]
        exact ih hnd.2 hm'

theorem dictGet_map_pair {σ : Type} (f : String → σ) (L : List String)
    (t : String) :
    dictGet t (L.map (fun x => (x, f x))) = if t ∈ L then some (f t) else none := by
  induction L with
  | nil => simp [dictGet]
  | cons x xs ih =>
    simp only [List.map_cons, dictGet, List.mem_cons]
    by_cases h : x = t
    · subst h
      simp
    · have h' : ¬ t = x := fun hh => h hh.symm
      simp [h, h', ih]

/-! ### Vocabulary membership -/

theorem mem_insertAsc (x y : String) (l : List String) :
    y ∈ insertAsc x l ↔ y = x ∨ y ∈ l := by
  induction l with
  | nil => simp [insertAsc]
  | cons z zs ih =>
    rw [insertAsc]
    by_cases h : strLeb x z = true
    · simp [h, List.mem_cons]
    · simp only [if_neg h, List.mem_cons, ih]
      tauto

theorem mem_sortAsc (y : String) (l : List String) :
    y ∈ sortAsc l ↔ y ∈ l := by
  induction l with
  | nil => simp [sortAsc]
  | cons x xs ih =>
    rw [sortAsc, mem_insertAsc, ih, List.mem_cons]

theorem mem_vocab (c : Corpus) (t : String) :
    t ∈ vocab c ↔ ∃ p ∈ c, t ∈ docTerms p.2 := by
  rw [vocab, mem_sortAsc, List.mem_dedup, List.mem_flatten]
  constructor
  · rintro ⟨l, hl, ht⟩
    rcases List.mem_map.mp hl with ⟨p, hp, rfl⟩
    exact ⟨p, hp, ht⟩
  · rintro ⟨p, hp, ht⟩
    exact ⟨docTerms p.2, List.mem_map.mpr ⟨p, hp, rfl⟩, ht⟩

/-! ### Sorting lemmas -/

theorem mem_insertDesc {α : Type} [LinearOrder α] (x b : String × α)
    (l : List (String × α)) : b ∈ insertDesc x l ↔ b = x ∨ b ∈ l := by
  induction l with
  | nil => simp [insertDesc]
  | cons y ys ih =>
    rw [insertDesc]
    by_cases h : y.2 ≤ x.2
    · simp [h, List.mem_cons]
    · simp only [if_neg h, List.mem_cons, ih]
      tauto

theorem mem_sortDesc {α : Type} [LinearOrder α] (b : String × α)
    (l : List (String × α)) : b ∈ sortDesc l ↔ b ∈ l := by
  induction l with
  | nil => simp [sortDesc]
  | cons x xs ih =>
    rw [sortDesc, mem_insertDesc, ih, List.mem_cons]

theorem length_insertDesc {α : Type} [LinearOrder α] (x : String × α)
    (l : List (String × α)) : (insertDesc x l).length = l.length + 1 := by
  induction l with
  | nil => simp [insertDesc]
  | cons y ys ih =>
    rw [insertDesc]
    by_cases h : y.2 ≤ x.2
    · simp [h]
    · simp [h, ih]

theorem length_sortDesc {α : Type} [LinearOrder α] (l : List (String × α)) :
    (sortDesc l).length = l.length := by
  induction l with
  | nil => rfl
  | cons x xs ih => rw [sortDesc, length_insertDesc, ih, List.length_cons]

theorem pairwise_insertDesc {α : Type} [LinearOrder α] (x : String × α)
    {l : List (String × α)} (h : l.Pairwise (fun a b => b.2 ≤ a.2)) :
    (insertDesc x l).Pairwise (fun a b => b.2 ≤ a.2) := by
  induction l with
  | nil => simp [insertDesc]
  | cons y ys ih =>
    rcases List.pairwise_cons.mp h with ⟨hy, hys⟩
    rw [insertDesc]
    by_cases hle : y.2 ≤ x.2
    · rw [if_pos hle]
      refine List.pairwise_cons.mpr ⟨?_, h⟩
      intro b hb
      rcases List.mem_cons.mp hb with rfl | hb'
      · exact hle
      · exact le_trans (hy b hb') hle
    · rw [if_neg hle]
      refine List.pairwise_cons.mpr ⟨?_, ih hys⟩
      intro b hb
      rcases (mem_insertDesc x b ys).mp hb with rfl | hb'
      · exact le_of_not_le hle
      · exact hy b hb'

theorem pairwise_sortDesc {α : Type} [LinearOrder α] (l : List (String × α)) :
    (sortDesc l).Pairwise (fun a b => b.2 ≤ a.2) := by
  induction l with
  | nil => simp [sortDesc]
  | cons x xs ih => exact pairwise_insertDesc x ih

theorem mem_pySliceTo {σ : Type} {e : σ} {l : List σ} {k : Int}
    (h : e ∈ pySliceTo l k) : e ∈ l := by
  rw [pySliceTo] at h
  by_cases hk : k < 0
  · rw [if_pos hk] at h
    exact List.take_subset _ _ h
  · rw [if_neg hk] at h
    exact List.take_subset _ _ h

/-! ### Accumulator lemmas -/

theorem dictGet_append {σ : Type} (v : String) (l1 l2 : List (String × σ)) :
    dictGet v (l1 ++ l2) =
      match dictGet v l1 with
      | some x => some x
      | none => dictGet v l2 := by
  induction l1 with
  | nil => simp [dictGet]
  | cons e es ih =>
    simp only [List.cons_append, dictGet]
    by_cases h : e.1 = v
    · simp [h]
    · simp [h, ih]

theorem dictGet_mapUpdate_self {α : Type} [Add α] (sc : List (String × α))
    (u : String) (w : α) :
    dictGet u (sc.map (fun e => if e.1 = u then (e.1, e.2 + w) else e)) =
      (dictGet u sc).map (fun s => s + w) := by
  induction sc with
  | nil => rfl
  | cons e es ih =>
    by_cases h : e.1 = u
    · simp only [List.map_cons, if_pos h, dictGet, h, eq_self_iff_true, if_true]
      rfl
    · simp only [List.map_cons, if_neg h, dictGet, ih]

theorem dictGet_mapUpdate_other {α : Type} [Add α] (sc : List (String × α))
    (u v : String) (w : α) (hvu : v ≠ u) :
    dictGet v (sc.map (fun e => if e.1 = u then (e.1, e.2 + w) else e)) =
      dictGet v sc := by
  induction sc with
  | nil => rfl
  | cons e es ih =>
    by_cases h : e.1 = u
    · have hev : ¬ e.1 = v := by
        rw [h]
        exact fun hh => hvu hh.symm
      simp only [List.map_cons, if_pos h, dictGet, ih]
      simp only [if_neg hev]
    · by_cases hev : e.1 = v
      · simp only [List.map_cons, if_neg h, dictGet, if_pos hev]
      · simp only [List.map_cons, if_neg h, dictGet, if_neg hev, ih]

theorem scoreOf_addScore {α : Type} [AddCommMonoid α] (sc : List (String × α))
    (u v : String) (w : α) :
    scoreOf (addScore sc u w) v = scoreOf sc v + (if v = u then w else 0) := by
  rw [addScore]
  by_cases hmem : u ∈ dictKeys sc
  · rw [if_pos hmem]
    by_cases hvu : v = u
    · subst hvu
      rw [scoreOf, dictGet_mapUpdate_self, if_pos rfl]
      rcases (mem_dictKeys_iff v sc).mp hmem with ⟨s, hs⟩
      rw [scoreOf, hs]
      simp
    · rw [scoreOf, dictGet_mapUpdate_other _ _ _ _ hvu, if_neg hvu]
      rw [scoreOf, add_zero]
  · rw [if_neg hmem, scoreOf, dictGet_append]
    by_cases hvu : v = u
    · subst hvu
      have hnone : dictGet v sc = none := (dictGet_eq_none v sc).mpr hmem
      rw [hnone]
      simp [dictGet, scoreOf, hnone]
    · by_cases hv : dictGet v sc = none
      · have h2 : ¬ u = v := fun hh => hvu hh.symm
        rw [hv]
        simp [dictGet, scoreOf, hv, hvu, h2]
      · rcases Option.ne_none_iff_exists'.mp hv with ⟨s, hs⟩
        rw [hs]
        simp [scoreOf, hs, hvu]

theorem scoreOf_postingFold {α : Type} [AddCommMonoid α]
    (p : List (String × α)) (sc : List (String × α)) (v : String) :
    scoreOf (postingFold sc p) v = scoreOf sc v + entrySum p v := by
  induction p generalizing sc with
  | nil => simp [postingFold, entrySum]
  | cons f p' ih =>
    rw [postingFold, List.foldl_cons, ← postingFold, ih, scoreOf_addScore]
    have : entrySum (f :: p') v = (if v = f.1 then f.2 else 0) + entrySum p' v := by
      rw [entrySum, entrySum]
      by_cases h : f.1 = v
      · rw [List.filter_cons, if_pos (by simpa using h), if_pos h.symm,
          List.map_cons, List.sum_cons]
      · rw [List.filter_cons, if_neg (by simpa using h),
          if_neg (fun hh => h hh.symm), zero_add]
    rw [this, add_assoc]

theorem scoreOf_foldl_termStep {α : Type} [AddCommMonoid α]
    (data : InvIndex α) (v : String) (ts : List String)
    (sc : List (String × α)) :
    scoreOf (ts.foldl (termStep data) sc) v =
      scoreOf sc v + ((ts.map (fun t => postingContrib data t v)).sum) := by
  induction ts generalizing sc with
  | nil => simp
  | cons t ts' ih =>
    rw [List.foldl_cons, ih, List.map_cons, List.sum_cons, ← add_assoc]
    congr 1
    rw [termStep, postingContrib]
    cases h : dictGet t data with
    | none => simp
    | some p => rw [scoreOf_postingFold]

theorem scoreOf_accumulate {α : Type} [AddCommMonoid α] (data : InvIndex α)
    (ts : List String) (v : String) :
    scoreOf (accumulate data ts) v =
      ((ts.map (fun t => postingContrib data t v)).sum) := by
  rw [accumulate, scoreOf_foldl_termStep]
  simp [scoreOf, dictGet]

theorem dictKeys_addScore_of_mem {α : Type} [Add α] (sc : List (String × α))
    (u : String) (w : α) (h : u ∈ dictKeys sc) :
    dictKeys (addScore sc u w) = dictKeys sc := by
  rw [addScore, if_pos h, dictKeys, dictKeys, List.map_map]
  apply List.map_congr_left
  intro e _
  by_cases hh : e.1 = u
  · simp [Function.comp, hh]
  · simp [Function.comp, hh]

theorem dictKeys_addScore_of_not_mem {α : Type} [Add α]
    (sc : List (String × α)) (u : String) (w : α) (h : u ∉ dictKeys sc) :
    dictKeys (addScore sc u w) = dictKeys sc ++ [u] := by
  rw [addScore, if_neg h, dictKeys, dictKeys, List.map_append]
  rfl

theorem nodup_dictKeys_addScore {α : Type} [Add α] {sc : List (String × α)}
    (u : String) (w : α) (hnd : (dictKeys sc).Nodup) :
    (dictKeys (addScore sc u w)).Nodup := by
  by_cases h : u ∈ dictKeys sc
  · rw [dictKeys_addScore_of_mem sc u w h]
    exact hnd
  · rw [dictKeys_addScore_of_not_mem sc u w h]
    rw [List.nodup_append]
    exact ⟨hnd, List.nodup_singleton u, by simpa using h⟩

theorem nodup_dictKeys_postingFold {α : Type} [Add α]
    (p : List (String × α)) (sc : List (String × α))
    (hnd : (dictKeys sc).Nodup) : (dictKeys (postingFold sc p)).Nodup := by
  induction p generalizing sc with
  | nil => exact hnd
  | cons f p' ih =>
    rw [postingFold, List.foldl_cons, ← postingFold]
    exact ih _ (nodup_dictKeys_addScore _ _ hnd)

theorem nodup_dictKeys_accumulate {α : Type} [Add α] (data : InvIndex α)
    (ts : List String) : (dictKeys (accumulate data ts)).Nodup := by
  rw [accumulate]
  have main : ∀ (l : List String) (sc : List (String × α)),
      (dictKeys sc).Nodup → (dictKeys (l.foldl (termStep data) sc)).Nodup := by
    intro l
    induction l with
    | nil => exact fun sc h => h
    | cons t ts' ih =>
      intro sc hsc
      rw [List.foldl_cons]
      apply ih
      cases h : dictGet t data with
      | none => simpa [termStep, h] using hsc
      | some p =>
        simp only [termStep, h]
        exact nodup_dictKeys_postingFold p sc hsc
  exact main ts [] (by simp [dictKeys])

theorem snd_eq_scoreOf_of_mem_accumulate {α : Type} [AddCommMonoid α]
    {data : InvIndex α} {ts : List String} {e : String × α}
    (he : e ∈ accumulate data ts) :
    e.2 = scoreOf (accumulate data ts) e.1 := by
  have h := dictGet_of_mem_nodup (nodup_dictKeys_accumulate data ts)
    (show (e.1, e.2) ∈ accumulate data ts from he)
  rw [scoreOf, h]
  rfl

/-! ### Positivity and provenance of accumulated scores -/

theorem mem_addScore {α : Type} [Add α] {e : String × α}
    {sc : List (String × α)} {u : String} {w : α} (h : e ∈ addScore sc u w) :
    e ∈ sc ∨ (∃ s, (e.1, s) ∈ sc ∧ e.2 = s + w) ∨ e = (u, w) := by
  rw [addScore] at h
  by_cases hm : u ∈ dictKeys sc
  · rw [if_pos hm] at h
    rcases List.mem_map.mp h with ⟨x, hx, rfl⟩
    by_cases hh : x.1 = u
    · right; left
      rw [if_pos hh]
      exact ⟨x.2, hx, rfl⟩
    · left
      rw [if_neg hh]
      exact hx
  · rw [if_neg hm] at h
    rcases List.mem_append.mp h with h1 | h1
    · exact Or.inl h1
    · right; right
      simpa using h1

theorem postingFold_inv {α : Type} [LinearOrderedAddCommGroup α]
    (P : String → Prop) (p : List (String × α)) (sc : List (String × α))
    (hsc : ∀ e ∈ sc, 0 < e.2 ∧ P e.1) (hp : ∀ e ∈ p, 0 < e.2 ∧ P e.1) :
    ∀ e ∈ postingFold sc p, 0 < e.2 ∧ P e.1 := by
  induction p generalizing sc with
  | nil => exact hsc
  | cons f p' ih =>
    rw [postingFold, List.foldl_cons, ← postingFold]
    apply ih
    · intro e he
      rcases mem_addScore he with h1 | ⟨s, hs, he2⟩ | rfl
      · exact hsc e h1
      · refine ⟨?_, (hsc _ hs).2⟩
        rw [he2]
        exact add_pos (hsc _ hs).1 (hp f (List.mem_cons_self f p')).1
      · exact hp f (List.mem_cons_self f p')
    · intro e he
      exact hp e (List.mem_cons_of_mem _ he)

theorem foldl_termStep_inv {α : Type} [LinearOrderedAddCommGroup α]
    (data : InvIndex α) (hdata : ∀ td ∈ data, ∀ e ∈ td.2, 0 < e.2) :
    ∀ (ts : List String) (sc : List (String × α)) (P : String → Prop),
      (∀ e ∈ sc, 0 < e.2 ∧ P e.1) →
      ∀ e ∈ ts.foldl (termStep data) sc,
        0 < e.2 ∧ (P e.1 ∨ ∃ t ∈ ts, ∃ p, dictGet t data = some p ∧
          e.1 ∈ dictKeys p) := by
  intro ts
  induction ts with
  | nil =>
    intro sc P hsc e he
    rw [List.foldl_nil] at he
    exact ⟨(hsc e he).1, Or.inl (hsc e he).2⟩
  | cons t ts' ih =>
    intro sc P hsc e he
    rw [List.foldl_cons] at he
    cases h : dictGet t data with
    | none =>
      simp only [termStep, h] at he
      rcases ih sc P hsc e he with ⟨hpos, hP | ⟨t', ht', hp'⟩⟩
      · exact ⟨hpos, Or.inl hP⟩
      · exact ⟨hpos, Or.inr ⟨t', List.mem_cons_of_mem _ ht', hp'⟩⟩
    | some p =>
      simp only [termStep, h] at he
      have hpent : ∀ x ∈ p, 0 < x.2 := hdata (t, p) (dictGet_some_mem h)
      have hsc' : ∀ x ∈ postingFold sc p,
          0 < x.2 ∧ (P x.1 ∨ x.1 ∈ dictKeys p) :=
        postingFold_inv (fun u => P u ∨ u ∈ dictKeys p) p sc
          (fun x hx => ⟨(hsc x hx).1, Or.inl (hsc x hx).2⟩)
          (fun x hx => ⟨hpent x hx, Or.inr (List.mem_map.mpr ⟨x, hx, rfl⟩)⟩)
      rcases ih (postingFold sc p) (fun u => P u ∨ u ∈ dictKeys p) hsc' e he
        with ⟨hpos, hP | ⟨t', ht', hp'⟩⟩
      · rcases hP with hp1 | hk
        · exact ⟨hpos, Or.inl hp1⟩
        · exact ⟨hpos, Or.inr ⟨t, List.mem_cons_self t ts', p, h, hk⟩⟩
      · exact ⟨hpos, Or.inr ⟨t', List.mem_cons_of_mem _ ht', hp'⟩⟩

theorem accumulate_inv {α : Type} [LinearOrderedAddCommGroup α]
    (data : InvIndex α) (ts : List String)
    (hdata : ∀ td ∈ data, ∀ e ∈ td.2, 0 < e.2) :
    ∀ e ∈ accumulate data ts, 0 < e.2 ∧ ∃ t ∈ ts, ∃ p,
      dictGet t data = some p ∧ e.1 ∈ dictKeys p := by
  intro e he
  rcases foldl_termStep_inv data hdata ts [] (fun _ => False) (by simp) e he
    with ⟨hpos, hF | hex⟩
  · exact absurd hF id
  · exact ⟨hpos, hex⟩

/-! ### Inverted index lemmas -/

theorem dictKeys_invertedIndex (c : Corpus) :
    dictKeys (invertedIndex c) = vocab c := by
  rw [invertedIndex, dictKeys, List.map_map]
  have hcomp : (Prod.fst ∘ fun t => (t, postingOf c t)) = id := rfl
  rw [hcomp, List.map_id]

theorem dictGet_invertedIndex (c : Corpus) (t : String) :
    dictGet t (invertedIndex c) =
      if t ∈ vocab c then some (postingOf c t) else none := by
  rw [invertedIndex]
  exact dictGet_map_pair (fun t => postingOf c t) (vocab c) t

theorem postingOf_as_filterMap (c : Corpus) (t : String) :
    postingOf c t = c.filterMap (fun p =>
      (if 0 < wOf c t p.2 then some (wOf c t p.2) else none).map
        (fun v => (p.1, v))) := by
  rw [postingOf]
  congr 1
  funext p
  by_cases h : 0 < wOf c t p.2
  · simp [h]
  · simp [h]

theorem dictKeys_filterMap_subset {σ τ : Type} (g : σ → Option τ)
    (l : List (String × σ)) :
    dictKeys (l.filterMap (fun p => (g p.2).map (fun v => (p.1, v)))) ⊆
      dictKeys l := by
  intro x hx
  rcases List.mem_map.mp hx with ⟨e, he, rfl⟩
  rcases List.mem_filterMap.mp he with ⟨a, ha, hfa⟩
  cases hg : g a.2 with
  | none => rw [hg] at hfa; simp at hfa
  | some v =>
    rw [hg] at hfa
    refine List.mem_map.mpr ⟨a, ha, ?_⟩
    cases hfa
    rfl

theorem dictGet_filterMap_opt {σ τ : Type} (g : σ → Option τ)
    (l : List (String × σ)) (d : String) (hnd : (l.map Prod.fst).Nodup) :
    dictGet d (l.filterMap (fun p => (g p.2).map (fun v => (p.1, v)))) =
      (dictGet d l).bind g := by
  induction l with
  | nil => rfl
  | cons p l' ih =>
    rw [List.map_cons] at hnd
    rcases List.nodup_cons.mp hnd with ⟨hp, hnd'⟩
    cases hg : g p.2 with
    | none =>
      rw [List.filterMap_cons]
      simp only [hg, Option.map_none']
      by_cases hd : p.1 = d
      · have hnone : dictGet d (l'.filterMap
            (fun p => (g p.2).map (fun v => (p.1, v)))) = none := by
          rw [dictGet_eq_none]
          intro hmem
          apply hp
          rw [hd]
          exact dictKeys_filterMap_subset g l' hmem
        rw [hnone, dictGet, if_pos hd, Option.some_bind, hg]
      · rw [dictGet, if_neg hd, ih hnd']
    | some v =>
      rw [List.filterMap_cons]
      simp only [hg, Option.map_some']
      by_cases hd : p.1 = d
      · rw [dictGet, if_pos hd, dictGet, if_pos hd, Option.some_bind, hg]
      · rw [dictGet, if_neg hd, dictGet, if_neg hd, ih hnd']

theorem dictGet_postingOf (c : Corpus) (t d : String) (hnd : keysNodup c) :
    dictGet d (postingOf c t) =
      (dictGet d c).bind (fun text =>
        if 0 < wOf c t text then some (wOf c t text) else none) := by
  rw [postingOf_as_filterMap]
  exact dictGet_filterMap_opt
    (fun text => if 0 < wOf c t text then some (wOf c t text) else none) c d hnd

theorem mem_docTerms_of_wOf_pos {c : Corpus} {t text : String}
    (h : 0 < wOf c t text) : t ∈ docTerms text := by
  by_contra hmem
  have hc : (docTerms text).count t = 0 := List.count_eq_zero.mpr hmem
  have hz : wOf c t text = 0 := by
    rw [wOf, rawW, hc]
    simp
  rw [hz] at h
  exact lt_irrefl 0 h

/-! ### Tokenizer lemmas -/

theorem joinChars_cons_cons (w w2 : List Char) (ws : List (List Char)) :
    joinChars (w :: w2 :: ws) = w ++ ' ' :: joinChars (w2 :: ws) := rfl

theorem runsAux_all (p : Char → Bool) (w : List Char) :
    ∀ (rest acc : List Char), (∀ ch ∈ w, p ch = true) →
      runsAux p (w ++ rest) acc = runsAux p rest (w.reverse ++ acc) := by
  induction w with
  | nil =>
    intro rest acc _
    simp
  | cons ch w' ih =>
    intro rest acc hw
    rw [List.cons_append, runsAux, if_pos (hw ch (List.mem_cons_self ch w'))]
    rw [ih rest (ch :: acc) (fun x hx => hw x (List.mem_cons_of_mem _ hx))]
    congr 1
    simp

theorem runsAux_break (p : Char → Bool) (b : Char) (rest acc : List Char)
    (hb : p b = false) (hacc : acc ≠ []) :
    runsAux p (b :: rest) acc = acc.reverse :: runsAux p rest [] := by
  rw [runsAux, if_neg (by simp [hb]), if_neg (by simpa using hacc)]

theorem runs_join (p : Char → Bool) (hsp : p ' ' = false) :
    ∀ ws : List (List Char), (∀ w ∈ ws, w ≠ [] ∧ ∀ ch ∈ w, p ch = true) →
      runs p (joinChars ws) = ws := by
  intro ws
  induction ws with
  | nil => intro _; rfl
  | cons w ws' ih =>
    intro h
    have hw := h w (List.mem_cons_self w ws')
    cases ws' with
    | nil =>
      rw [joinChars, runs]
      have hall := runsAux_all p w [] [] hw.2
      rw [List.append_nil] at hall
      rw [hall, runsAux, List.append_nil,
        if_neg (by simpa using fun hh => hw.1 (List.reverse_eq_nil_iff.mp hh)),
        List.reverse_reverse]
    | cons w2 ws'' =>
      rw [joinChars_cons_cons, runs,
        runsAux_all p w (' ' :: joinChars (w2 :: ws'')) [] hw.2,
        List.append_nil,
        runsAux_break p ' ' _ _ hsp
          (by simpa using fun hh => hw.1 (List.reverse_eq_nil_iff.mp hh)),
        List.reverse_reverse]
      congr 1
      exact ih (fun x hx => h x (List.mem_cons_of_mem _ hx))

theorem map_toLower_fixed (w : List Char) (h : ∀ ch ∈ w, ch.toLower = ch) :
    w.map Char.toLower = w := by
  calc w.map Char.toLower = w.map id := List.map_congr_left h
    _ = w := List.map_id w

theorem map_toLower_joinChars (ws : List (List Char))
    (h : ∀ w ∈ ws, ∀ ch ∈ w, ch.toLower = ch) :
    (joinChars ws).map Char.toLower = joinChars ws := by
  induction ws with
  | nil => rfl
  | cons w ws' ih =>
    have hw := h w (List.mem_cons_self w ws')
    cases ws' with
    | nil =>
      rw [joinChars]
      exact map_toLower_fixed w hw
    | cons w2 ws'' =>
      rw [joinChars_cons_cons, List.map_append, List.map_cons]
      rw [map_toLower_fixed w hw,
        show ' '.toLower = ' ' from rfl,
        ih (fun x hx => h x (List.mem_cons_of_mem _ hx))]

theorem pyWhitespace_of_wordChar {ch : Char} (h : wordChar ch = true) :
    pyWhitespace ch = false := by
  cases hpw : pyWhitespace ch with
  | false => rfl
  | true =>
    exfalso
    rw [pyWhitespace] at hpw
    simp only [Bool.or_eq_true, decide_eq_true_eq] at hpw
    rcases hpw with (((((h1 | h1) | h1) | h1) | h1) | h1) <;>
      (subst h1; exact absurd h (by decide))

/-! ### Serialization round trip -/

theorem readPosting_map (p : List (String × ℝ)) :
    readPosting (p.map (fun q => (q.1, Jval.jnum q.2))) = Except.ok p := by
  induction p with
  | nil => rfl
  | cons q p' ih => simp [readPosting, ih, Except.map]

theorem readIndex_map (idx : InvIndex ℝ) :
    readIndex (idx.map (fun e => (e.1, Jval.jobj
      (e.2.map (fun q => (q.1, Jval.jnum q.2)))))) = Except.ok idx := by
  induction idx with
  | nil => rfl
  | cons e idx' ih => simp [readIndex, readPosting_map, ih, Except.map]

/-! ### Concrete evaluation of the weighting pipeline on `corpus2` -/

theorem logA_pos : (0 : ℝ) < Real.log (3 / 2) + 1 := by
  have h0 : (0 : ℝ) ≤ Real.log (3 / 2) := Real.log_nonneg (by norm_num)
  linarith

theorem idf_corpus2_apple : idfOf corpus2 "apple" = Real.log (3 / 2) + 1 := by
  rw [idfOf, show corpus2.length = 2 from rfl,
    show dfCount corpus2 "apple" = 1 from rfl]
  norm_num

theorem idf_corpus2_banana : idfOf corpus2 "banana" = Real.log (3 / 2) + 1 := by
  rw [idfOf, show corpus2.length = 2 from rfl,
    show dfCount corpus2 "banana" = 1 from rfl]
  norm_num

theorem rawW_corpus2_aa : rawW corpus2 "apple" "apple" = Real.log (3 / 2) + 1 := by
  rw [rawW, show (docTerms "apple").count "apple" = 1 from rfl, idf_corpus2_apple]
  norm_num

theorem rawW_corpus2_ba : rawW corpus2 "banana" "apple" = 0 := by
  rw [rawW, show (docTerms "apple").count "banana" = 0 from rfl]
  norm_num

theorem rawW_corpus2_ab : rawW corpus2 "apple" "banana" = 0 := by
  rw [rawW, show (docTerms "banana").count "apple" = 0 from rfl]
  norm_num

theorem rawW_corpus2_bb : rawW corpus2 "banana" "banana" = Real.log (3 / 2) + 1 := by
  rw [rawW, show (docTerms "banana").count "banana" = 1 from rfl, idf_corpus2_banana]
  norm_num

theorem rowNorm_corpus2_apple :
    rowNormOf corpus2 "apple" = Real.log (3 / 2) + 1 := by
  rw [rowNormOf, show vocab corpus2 = ["apple", "banana"] from rfl,
    List.map_cons, List.map_cons, List.map_nil, List.sum_cons, List.sum_cons,
    List.sum_nil, rawW_corpus2_aa, rawW_corpus2_ba]
  rw [show (0 : ℝ) ^ 2 + 0 = 0 by norm_num, add_zero]
  exact Real.sqrt_sq (le_of_lt logA_pos)

theorem rowNorm_corpus2_banana :
    rowNormOf corpus2 "banana" = Real.log (3 / 2) + 1 := by
  rw [rowNormOf, show vocab corpus2 = ["apple", "banana"] from rfl,
    List.map_cons, List.map_cons, List.map_nil, List.sum_cons, List.sum_cons,
    List.sum_nil, rawW_corpus2_ab, rawW_corpus2_bb]
  rw [show ((0 : ℝ) ^ 2 + ((Real.log (3 / 2) + 1) ^ 2 + 0)) =
    (Real.log (3 / 2) + 1) ^ 2 by ring]
  exact Real.sqrt_sq (le_of_lt logA_pos)

theorem wOf_corpus2_aa : wOf corpus2 "apple" "apple" = 1 := by
  rw [wOf, rawW_corpus2_aa, rowNorm_corpus2_apple]
  exact div_self (ne_of_gt logA_pos)

theorem wOf_corpus2_ba : wOf corpus2 "banana" "apple" = 0 := by
  rw [wOf, rawW_corpus2_ba, zero_div]

theorem wOf_corpus2_ab : wOf corpus2 "apple" "banana" = 0 := by
  rw [wOf, rawW_corpus2_ab, zero_div]

theorem wOf_corpus2_bb : wOf corpus2 "banana" "banana" = 1 := by
  rw [wOf, rawW_corpus2_bb, rowNorm_corpus2_banana]
  exact div_self (ne_of_gt logA_pos)

theorem postingOf_corpus2_apple : postingOf corpus2 "apple" = [("doc1", (1 : ℝ))] := by
  rw [postingOf, show corpus2 = [("doc1", "apple"), ("doc2", "banana")] from rfl,
    List.filterMap_cons, List.filterMap_cons, List.filterMap_nil]
  have haa : wOf [("doc1", "apple"), ("doc2", "banana")] "apple" "apple" = 1 :=
    wOf_corpus2_aa
  have hab : wOf [("doc1", "apple"), ("doc2", "banana")] "apple" "banana" = 0 :=
    wOf_corpus2_ab
  simp only [haa, hab]
  norm_num

theorem postingOf_corpus2_banana : postingOf corpus2 "banana" = [("doc2", (1 : ℝ))] := by
  rw [postingOf, show corpus2 = [("doc1", "apple"), ("doc2", "banana")] from rfl,
    List.filterMap_cons, List.filterMap_cons, List.filterMap_nil]
  have hba : wOf [("doc1", "apple"), ("doc2", "banana")] "banana" "apple" = 0 :=
    wOf_corpus2_ba
  have hbb : wOf [("doc1", "apple"), ("doc2", "banana")] "banana" "banana" = 1 :=
    wOf_corpus2_bb
  simp only [hba, hbb]
  norm_num

theorem invertedIndex_corpus2 :
    invertedIndex corpus2 = [("apple", [("doc1", (1 : ℝ))]),
      ("banana", [("doc2", (1 : ℝ))])] := by
  rw [invertedIndex, show vocab corpus2 = ["apple", "banana"] from rfl,
    List.map_cons, List.map_cons, List.map_nil,
    postingOf_corpus2_apple, postingOf_corpus2_banana]

/-! ### Concrete evaluation of the weighting pipeline on `corpusA` -/

theorem idf_corpusA_banana : idfOf corpusA "banana" = 1 := by
  rw [idfOf, show corpusA.length = 2 from rfl,
    show dfCount corpusA "banana" = 2 from rfl]
  norm_num [Real.log_one]

theorem rawW_corpusA_b1 : rawW corpusA "banana" "apple banana" = 1 := by
  rw [rawW, show (docTerms "apple banana").count "banana" = 1 from rfl,
    idf_corpusA_banana]
  norm_num

theorem rawW_corpusA_b2 : rawW corpusA "banana" "banana cherry" = 1 := by
  rw [rawW, show (docTerms "banana cherry").count "banana" = 1 from rfl,
    idf_corpusA_banana]
  norm_num

theorem idf_corpusA_apple : idfOf corpusA "apple" = Real.log (3 / 2) + 1 := by
  rw [idfOf, show corpusA.length = 2 from rfl,
    show dfCount corpusA "apple" = 1 from rfl]
  norm_num

theorem idf_corpusA_cherry : idfOf corpusA "cherry" = Real.log (3 / 2) + 1 := by
  rw [idfOf, show corpusA.length = 2 from rfl,
    show dfCount corpusA "cherry" = 1 from rfl]
  norm_num

theorem rawW_corpusA_a1 :
    rawW corpusA "apple" "apple banana" = Real.log (3 / 2) + 1 := by
  rw [rawW, show (docTerms "apple banana").count "apple" = 1 from rfl,
    idf_corpusA_apple]
  norm_num

theorem rawW_corpusA_c1 : rawW corpusA "cherry" "apple banana" = 0 := by
  rw [rawW, show (docTerms "apple banana").count "cherry" = 0 from rfl]
  norm_num

theorem rawW_corpusA_a2 : rawW corpusA "apple" "banana cherry" = 0 := by
  rw [rawW, show (docTerms "banana cherry").count "apple" = 0 from rfl]
  norm_num

theorem rawW_corpusA_c2 :
    rawW corpusA "cherry" "banana cherry" = Real.log (3 / 2) + 1 := by
  rw [rawW, show (docTerms "banana cherry").count "cherry" = 1 from rfl,
    idf_corpusA_cherry]
  norm_num

theorem rowNorm_corpusA_1 : rowNormOf corpusA "apple banana" =
    Real.sqrt ((Real.log (3 / 2) + 1) ^ 2 + 1) := by
  rw [rowNormOf, show vocab corpusA = ["apple", "banana", "cherry"] from rfl,
    List.map_cons, List.map_cons, List.map_cons, List.map_nil,
    List.sum_cons, List.sum_cons, List.sum_cons, List.sum_nil,
    rawW_corpusA_a1, rawW_corpusA_b1, rawW_corpusA_c1]
  rw [show ((Real.log (3 / 2) + 1) ^ 2 + ((1 : ℝ) ^ 2 + ((0 : ℝ) ^ 2 + 0))) =
    (Real.log (3 / 2) + 1) ^ 2 + 1 by ring]

theorem rowNorm_corpusA_2 : rowNormOf corpusA "banana cherry" =
    Real.sqrt ((Real.log (3 / 2) + 1) ^ 2 + 1) := by
  rw [rowNormOf, show vocab corpusA = ["apple", "banana", "cherry"] from rfl,
    List.map_cons, List.map_cons, List.map_cons, List.map_nil,
    List.sum_cons, List.sum_cons, List.sum_cons, List.sum_nil,
    rawW_corpusA_a2, rawW_corpusA_b2, rawW_corpusA_c2]
  rw [show ((0 : ℝ) ^ 2 + ((1 : ℝ) ^ 2 + ((Real.log (3 / 2) + 1) ^ 2 + 0))) =
    (Real.log (3 / 2) + 1) ^ 2 + 1 by ring]

theorem sqrtS_pos : (0 : ℝ) < Real.sqrt ((Real.log (3 / 2) + 1) ^ 2 + 1) := by
  apply Real.sqrt_pos.mpr
  positivity

theorem wA_pos :
    (0 : ℝ) < 1 / Real.sqrt ((Real.log (3 / 2) + 1) ^ 2 + 1) := by
  exact div_pos one_pos sqrtS_pos

theorem wOf_corpusA_b1 : wOf corpusA "banana" "apple banana" =
    1 / Real.sqrt ((Real.log (3 / 2) + 1) ^ 2 + 1) := by
  rw [wOf, rawW_corpusA_b1, rowNorm_corpusA_1]

theorem wOf_corpusA_b2 : wOf corpusA "banana" "banana cherry" =
    1 / Real.sqrt ((Real.log (3 / 2) + 1) ^ 2 + 1) := by
  rw [wOf, rawW_corpusA_b2, rowNorm_corpusA_2]

theorem postingOf_corpusA_banana : postingOf corpusA "banana" =
    [("doc1", 1 / Real.sqrt ((Real.log (3 / 2) + 1) ^ 2 + 1)),
     ("doc2", 1 / Real.sqrt ((Real.log (3 / 2) + 1) ^ 2 + 1))] := by
  rw [postingOf,
    show corpusA = [("doc1", "apple banana"), ("doc2", "banana cherry")] from rfl,
    List.filterMap_cons, List.filterMap_cons, List.filterMap_nil]
  have h1 : wOf [("doc1", "apple banana"), ("doc2", "banana cherry")]
      "banana" "apple banana" =
      1 / Real.sqrt ((Real.log (3 / 2) + 1) ^ 2 + 1) := wOf_corpusA_b1
  have h2 : wOf [("doc1", "apple banana"), ("doc2", "banana cherry")]
      "banana" "banana cherry" =
      1 / Real.sqrt ((Real.log (3 / 2) + 1) ^ 2 + 1) := wOf_corpusA_b2
  simp only [h1, h2, if_pos wA_pos]

/-! ### Concrete query evaluations -/

theorem scenarioA_search : get_top_k_results (invertedIndex corpusA) "banana" 2 =
    [("doc1", 1 / Real.sqrt ((Real.log (3 / 2) + 1) ^ 2 + 1)),
     ("doc2", 1 / Real.sqrt ((Real.log (3 / 2) + 1) ^ 2 + 1))] := by
  have hget : dictGet "banana" (invertedIndex corpusA) =
      some (postingOf corpusA "banana") := by
    rw [dictGet_invertedIndex,
      if_pos (show "banana" ∈ vocab corpusA by decide)]
  rw [get_top_k_results, show queryTerms "banana" = ["banana"] from rfl,
    accumulate, List.foldl_cons, List.foldl_nil]
  simp only [termStep, hget, postingOf_corpusA_banana]
  rw [postingFold, List.foldl_cons, List.foldl_cons, List.foldl_nil]
  rw [show addScore ([] : List (String × ℝ)) "doc1"
      (1 / Real.sqrt ((Real.log (3 / 2) + 1) ^ 2 + 1)) =
      [("doc1", 1 / Real.sqrt ((Real.log (3 / 2) + 1) ^ 2 + 1))] from by
    rw [addScore, if_neg (by simp [dictKeys])]
    rfl]
  rw [show addScore
      [("doc1", 1 / Real.sqrt ((Real.log (3 / 2) + 1) ^ 2 + 1))] "doc2"
      (1 / Real.sqrt ((Real.log (3 / 2) + 1) ^ 2 + 1)) =
      [("doc1", 1 / Real.sqrt ((Real.log (3 / 2) + 1) ^ 2 + 1)),
       ("doc2", 1 / Real.sqrt ((Real.log (3 / 2) + 1) ^ 2 + 1))] from by
    rw [addScore, if_neg (by simp [dictKeys])]
    rfl]
  rw [sortDesc, sortDesc, sortDesc, insertDesc, insertDesc, if_pos le_rfl]
  rw [pySliceTo, if_neg (by norm_num), show ((2 : Int).toNat) = 2 from rfl]
  rfl

theorem corpus2_search_tie : get_top_k_results (invertedIndex corpus2)
    "banana apple" 2 = [("doc2", (1 : ℝ)), ("doc1", (1 : ℝ))] := by
  rw [invertedIndex_corpus2, get_top_k_results,
    show queryTerms "banana apple" = ["banana", "apple"] from rfl,
    accumulate, List.foldl_cons, List.foldl_cons, List.foldl_nil]
  have hb : dictGet "banana" [("apple", [("doc1", (1 : ℝ))]),
      ("banana", [("doc2", (1 : ℝ))])] = some [("doc2", (1 : ℝ))] := by
    simp [dictGet]
  have ha : dictGet "apple" [("apple", [("doc1", (1 : ℝ))]),
      ("banana", [("doc2", (1 : ℝ))])] = some [("doc1", (1 : ℝ))] := by
    simp [dictGet]
  simp only [termStep, hb, ha]
  rw [show postingFold ([] : List (String × ℝ)) [("doc2", (1 : ℝ))] =
      [("doc2", (1 : ℝ))] from by
    rw [postingFold, List.foldl_cons, List.foldl_nil, addScore,
      if_neg (by simp [dictKeys])]
    rfl]
  rw [show postingFold [("doc2", (1 : ℝ))] [("doc1", (1 : ℝ))] =
      [("doc2", (1 : ℝ)), ("doc1", (1 : ℝ))] from by
    rw [postingFold, List.foldl_cons, List.foldl_nil, addScore,
      if_neg (by simp [dictKeys])]
    rfl]
  rw [sortDesc, sortDesc, sortDesc, insertDesc, insertDesc, if_pos le_rfl]
  rw [pySliceTo, if_neg (by norm_num), show ((2 : Int).toNat) = 2 from rfl]
  rfl

/-! ### Stability of the descending sort -/

theorem filter_insertDesc {α : Type} [LinearOrder α] (x : String × α)
    (l : List (String × α)) (s : α) :
    (insertDesc x l).filter (fun e => decide (e.2 = s)) =
      if x.2 = s then x :: l.filter (fun e => decide (e.2 = s))
      else l.filter (fun e => decide (e.2 = s)) := by
  induction l with
  | nil =>
    by_cases hxs : x.2 = s
    · simp [insertDesc, List.filter_cons, hxs]
    · simp [insertDesc, List.filter_cons, hxs]
  | cons y ys ih =>
    rw [insertDesc]
    by_cases hle : y.2 ≤ x.2
    · rw [if_pos hle]
      by_cases hxs : x.2 = s
      · simp [List.filter_cons, hxs]
      · simp [List.filter_cons, hxs]
    · rw [if_neg hle]
      have hxy : x.2 < y.2 := lt_of_not_le hle
      by_cases hxs : x.2 = s
      · have hys : ¬ y.2 = s := by
          rw [← hxs]
          exact ne_of_gt hxy
        have hysb : ¬ (decide (y.2 = s) = true) := by simpa using hys
        rw [List.filter_cons, if_neg hysb, ih, if_pos hxs,
          List.filter_cons, if_neg hysb, if_pos hxs]
      · by_cases hys : y.2 = s
        · have hysb : decide (y.2 = s) = true := by simpa using hys
          rw [List.filter_cons, if_pos hysb, ih, if_neg hxs,
            List.filter_cons, if_pos hysb, if_neg hxs]
        · have hysb : ¬ (decide (y.2 = s) = true) := by simpa using hys
          rw [List.filter_cons, if_neg hysb, ih, if_neg hxs,
            List.filter_cons, if_neg hysb, if_neg hxs]

theorem filter_sortDesc {α : Type} [LinearOrder α] (l : List (String × α))
    (s : α) :
    (sortDesc l).filter (fun e => decide (e.2 = s)) =
      l.filter (fun e => decide (e.2 = s)) := by
  induction l with
  | nil => rfl
  | cons x xs ih =>
    rw [sortDesc, filter_insertDesc]
    by_cases hxs : x.2 = s
    · have hxsb : decide (x.2 = s) = true := by simpa using hxs
      rw [if_pos hxs, ih, List.filter_cons, if_pos hxsb]
    · have hxsb : ¬ (decide (x.2 = s) = true) := by simpa using hxs
      rw [if_neg hxs, ih, List.filter_cons, if_neg hxsb]

theorem pySliceTo_isPrefix {σ : Type} (l : List σ) (k : Int) :
    (pySliceTo l k).IsPrefix l := by
  rw [pySliceTo]
  split
  · exact List.take_prefix _ _
  · exact List.take_prefix _ _

theorem dictKeys_filterMap_sublist {σ τ : Type} (g : σ → Option τ)
    (l : List (String × σ)) :
    List.Sublist
      (dictKeys (l.filterMap (fun p => (g p.2).map (fun v => (p.1, v)))))
      (dictKeys l) := by
  induction l with
  | nil => exact List.Sublist.refl _
  | cons p l' ih =>
    rw [List.filterMap_cons]
    cases hg : g p.2 with
    | none =>
      simp only [Option.map_none']
      rw [show dictKeys (p :: l') = p.1 :: dictKeys l' from rfl]
      exact List.Sublist.cons p.1 ih
    | some v =>
      simp only [Option.map_some']
      rw [show dictKeys (p :: l') = p.1 :: dictKeys l' from rfl,
        show dictKeys ((p.1, v) :: l'.filterMap
            (fun p => (g p.2).map (fun v => (p.1, v)))) =
          p.1 :: dictKeys (l'.filterMap
            (fun p => (g p.2).map (fun v => (p.1, v)))) from rfl]
      exact List.Sublist.cons₂ p.1 ih

theorem postingFold_of_fresh {α : Type} [Add α] (p : List (String × α)) :
    ∀ sc : List (String × α), (∀ x ∈ dictKeys p, x ∉ dictKeys sc) →
      (dictKeys p).Nodup → postingFold sc p = sc ++ p := by
  induction p with
  | nil =>
    intro sc _ _
    rw [postingFold, List.foldl_nil, List.append_nil]
  | cons e p' ih =>
    intro sc hfresh hnd
    have hkeys : dictKeys (e :: p') = e.1 :: dictKeys p' := rfl
    have hf_e : e.1 ∉ dictKeys sc :=
      hfresh e.1 (by rw [hkeys]; exact List.mem_cons_self _ _)
    have hf_p : ∀ x ∈ dictKeys p', x ∉ dictKeys sc := fun x hx =>
      hfresh x (by rw [hkeys]; exact List.mem_cons_of_mem _ hx)
    rw [hkeys] at hnd
    rcases List.nodup_cons.mp hnd with ⟨he, hnd'⟩
    rw [postingFold, List.foldl_cons, ← postingFold]
    have haddp : addScore sc e.1 e.2 = sc ++ [e] := by
      rw [addScore, if_neg hf_e]
    have hfresh' : ∀ x ∈ dictKeys p', x ∉ dictKeys (sc ++ [e]) := by
      intro x hx hmem
      rw [show dictKeys (sc ++ [e]) = dictKeys sc ++ [e.1] from by
        rw [dictKeys, dictKeys, List.map_append]
        rfl] at hmem
      rcases List.mem_append.mp hmem with h1 | h1
      · exact hf_p x hx h1
      · exact he (List.mem_singleton.mp h1 ▸ hx)
    rw [haddp, ih (sc ++ [e]) hfresh' hnd', List.append_assoc,
      List.singleton_append]

/-! ### Claim theorems -/

/-- C1: every weight stored in the built inverted index for a (term, document)
pair equals the reference TF-IDF value `tf(t,d) * (ln((1+N)/(1+df(t))) + 1)`
divided by the Euclidean norm of the document's raw weight row, and a document
with no surviving tokens contributes no posting entry for any term. -/
theorem C1_tfidf_weight (c : Corpus) (t d : String) (h : keysNodup c) :
    (∀ w, lookupEntry (invertedIndex c) t d = some w →
      ∃ text, dictGet d c = some text ∧
        w = ((docTerms text).count t : ℝ) *
            (Real.log ((1 + (c.length : ℝ)) / (1 + (dfCount c t : ℝ))) + 1) /
            Real.sqrt (((vocab c).map (fun t2 =>
              (((docTerms text).count t2 : ℝ) *
                (Real.log ((1 + (c.length : ℝ)) /
                  (1 + (dfCount c t2 : ℝ))) + 1)) ^ 2)).sum)) ∧
    (∀ text, dictGet d c = some text → docTerms text = [] →
      ∀ t2, lookupEntry (invertedIndex c) t2 d = none) := by
  constructor
  · intro w hw
    rw [lookupEntry, dictGet_invertedIndex] at hw
    by_cases ht : t ∈ vocab c
    · rw [if_pos ht, Option.some_bind, dictGet_postingOf c t d h] at hw
      cases hd : dictGet d c with
      | none => rw [hd] at hw; cases hw
      | some text =>
        rw [hd, Option.some_bind] at hw
        by_cases hpos : 0 < wOf c t text
        · rw [if_pos hpos] at hw
          exact ⟨text, rfl, (Option.some.inj hw).symm⟩
        · rw [if_neg hpos] at hw; cases hw
    · rw [if_neg ht] at hw; cases hw
  · intro text hd hempty t2
    rw [lookupEntry, dictGet_invertedIndex]
    by_cases ht : t2 ∈ vocab c
    · rw [if_pos ht, Option.some_bind, dictGet_postingOf c t2 d h, hd,
        Option.some_bind]
      have hz : wOf c t2 text = 0 := by
        rw [wOf, rawW, hempty]
        simp
      rw [if_neg (by rw [hz]; exact lt_irrefl 0)]
    · rw [if_neg ht]
      rfl

/-- Witness for C1: on `corpus2` the stored weight for ("apple", "doc1")
exists and equals the reference formula (its value is 1). -/
theorem C1_tfidf_weight_witness :
    keysNodup corpus2 ∧
    lookupEntry (invertedIndex corpus2) "apple" "doc1" = some 1 ∧
    ∃ text, dictGet "doc1" corpus2 = some text ∧
      (1 : ℝ) = ((docTerms text).count "apple" : ℝ) *
        (Real.log ((1 + (corpus2.length : ℝ)) /
          (1 + (dfCount corpus2 "apple" : ℝ))) + 1) /
        Real.sqrt (((vocab corpus2).map (fun t2 =>
          (((docTerms text).count t2 : ℝ) *
            (Real.log ((1 + (corpus2.length : ℝ)) /
              (1 + (dfCount corpus2 t2 : ℝ))) + 1)) ^ 2)).sum) := by
  have hlook : lookupEntry (invertedIndex corpus2) "apple" "doc1" = some 1 := by
    rw [invertedIndex_corpus2, lookupEntry]
    simp [dictGet]
  exact ⟨by decide, hlook,
    (C1_tfidf_weight corpus2 "apple" "doc1" (by decide)).1 1 hlook⟩

/-- C2 counterexample: `get_top_k_results` does not reject a negative result
limit; with `k = -1` it performs the scoring and returns all but the last
scored document (Python slice semantics), not an `InvalidArgument` error. -/
theorem C2_counterexample : get_top_k_results
    [("banana", [("doc1", (2 : ℤ)), ("doc2", (1 : ℤ))])] "banana" (-1) =
    [("doc1", (2 : ℤ))] := by decide

/-- C2 amended: a negative `k` is not rejected; by Python's negative slice
semantics the call behaves exactly like the call with the nonnegative limit
`max (numScored + k) 0`, dropping the last `|k|` scored documents. -/
theorem C2_amended {α : Type} [LinearOrder α] [Add α] (data : InvIndex α)
    (q : String) (k : Int) (hk : k < 0) :
    get_top_k_results data q k = get_top_k_results data q
      (max (((accumulate data (queryTerms q)).length : Int) + k) 0) := by
  simp only [get_top_k_results, pySliceTo, length_sortDesc]
  rw [if_pos hk, if_neg (not_lt.mpr (le_max_right _ 0))]
  congr 1
  omega

/-- Witness for C2 amended at a concrete two-document index and `k = -1`. -/
theorem C2_amended_witness :
    ((-1 : Int) < 0) ∧ get_top_k_results
      [("banana", [("doc1", (2 : ℤ)), ("doc2", (1 : ℤ))])] "banana" (-1) =
      get_top_k_results [("banana", [("doc1", (2 : ℤ)), ("doc2", (1 : ℤ))])]
        "banana"
        (max (((accumulate [("banana", [("doc1", (2 : ℤ)), ("doc2", (1 : ℤ))])]
          (queryTerms "banana")).length : Int) + (-1)) 0) :=
  ⟨by decide, C2_amended _ _ _ (by decide)⟩

/-- C3 counterexample: repeating a query term changes the score — the query
"banana banana" doubles the document's score relative to "banana", because
the loop runs once per token occurrence, not once per distinct term. -/
theorem C3_counterexample :
    get_top_k_results [("banana", [("doc1", (1 : ℤ))])] "banana banana" 1 =
      [("doc1", (2 : ℤ))] ∧
    get_top_k_results [("banana", [("doc1", (1 : ℤ))])] "banana" 1 =
      [("doc1", (1 : ℤ))] := by decide

/-- C3 amended: every returned document's score is the sum, over query token
occurrences (with multiplicity), of that token's posting weight for the
document; a term repeated n times contributes n times its weight. -/
theorem C3_amended {α : Type} [LinearOrder α] [AddCommMonoid α]
    (data : InvIndex α) (q : String) (k : Int) (e : String × α)
    (he : e ∈ get_top_k_results data q k) :
    e.2 = ((queryTerms q).map (fun t => postingContrib data t e.1)).sum := by
  have hacc : e ∈ accumulate data (queryTerms q) :=
    (mem_sortDesc e _).mp (mem_pySliceTo he)
  rw [snd_eq_scoreOf_of_mem_accumulate hacc, scoreOf_accumulate]

/-- Witness for C3 amended: the doubled score 2 of "doc1" under the query
"banana banana" is the multiplicity sum of the query's token contributions. -/
theorem C3_amended_witness :
    (("doc1", (2 : ℤ)) ∈ get_top_k_results [("banana", [("doc1", (1 : ℤ))])]
      "banana banana" 1) ∧
    (2 : ℤ) = ((queryTerms "banana banana").map
      (fun t => postingContrib [("banana", [("doc1", (1 : ℤ))])] t "doc1")).sum :=
  ⟨by decide, C3_amended [("banana", [("doc1", (1 : ℤ))])] "banana banana" 1
    ("doc1", (2 : ℤ)) (by decide)⟩

/-- C4 counterexample: on the corpus [("doc1", "apple"), ("doc2", "banana")]
both documents score 1 for the query "banana apple", yet doc2 precedes doc1
in the result — ties follow accumulator insertion order (query term order),
not the corpus-insertion order in which doc1 was seen first. -/
theorem C4_counterexample :
    get_top_k_results (invertedIndex corpus2) "banana apple" 2 =
      [("doc2", (1 : ℝ)), ("doc1", (1 : ℝ))] := corpus2_search_tie

/-- C4 amended: results are sorted by score descending, and equal scores keep
the accumulator's insertion order — for every score `s`, the equal-`s`
entries of the result are a prefix of the accumulator's equal-`s` entries in
the accumulator's order (the sort is stable and the slice takes a prefix).
The accumulator order is first-encounter order over the query tokens' posting
lists: for a single-term query it is exactly the term's posting list, and a
built index's posting lists follow corpus-insertion order (their keys are a
sublist of the corpus keys); in particular Scenario A returns doc1 before
doc2 with equal positive weights. -/
theorem C4_amended :
    (∀ (data : InvIndex ℝ) (q : String) (k : Int),
      (get_top_k_results data q k).Pairwise (fun a b => b.2 ≤ a.2)) ∧
    (∀ (data : InvIndex ℝ) (q : String) (k : Int) (s : ℝ),
      List.IsPrefix
        ((get_top_k_results data q k).filter (fun e => decide (e.2 = s)))
        ((accumulate data (queryTerms q)).filter (fun e => decide (e.2 = s)))) ∧
    (∀ (data : InvIndex ℝ) (q t : String) (p : List (String × ℝ)),
      queryTerms q = [t] → dictGet t data = some p → (dictKeys p).Nodup →
      accumulate data (queryTerms q) = p) ∧
    (∀ (c : Corpus) (t : String) (p : List (String × ℝ)),
      dictGet t (invertedIndex c) = some p →
      List.Sublist (dictKeys p) (dictKeys c)) ∧
    (∃ w : ℝ, 0 < w ∧ get_top_k_results (invertedIndex corpusA) "banana" 2 =
      [("doc1", w), ("doc2", w)]) := by
  refine ⟨?_, ?_, ?_, ?_, ?_⟩
  · intro data q k
    have hsub : List.Sublist
        (pySliceTo (sortDesc (accumulate data (queryTerms q))) k)
        (sortDesc (accumulate data (queryTerms q))) := by
      rw [pySliceTo]
      split
      · exact List.take_sublist _ _
      · exact List.take_sublist _ _
    exact List.Pairwise.sublist hsub (pairwise_sortDesc _)
  · intro data q k s
    have hpre : List.IsPrefix
        (get_top_k_results data q k)
        (sortDesc (accumulate data (queryTerms q))) :=
      pySliceTo_isPrefix _ k
    have hfil := hpre.filter (fun e => decide (e.2 = s))
    rw [filter_sortDesc] at hfil
    exact hfil
  · intro data q t p hq hget hnd
    rw [hq, accumulate, List.foldl_cons, List.foldl_nil]
    simp only [termStep, hget]
    rw [postingFold_of_fresh p [] (fun x _ hx => by simp [dictKeys] at hx) hnd,
      List.nil_append]
  · intro c t p hget
    rw [dictGet_invertedIndex] at hget
    by_cases ht : t ∈ vocab c
    · rw [if_pos ht] at hget
      cases Option.some.inj hget
      rw [postingOf_as_filterMap]
      exact dictKeys_filterMap_sublist
        (fun text => if 0 < wOf c t text then some (wOf c t text) else none) c
    · rw [if_neg ht] at hget
      cases hget
  · exact ⟨1 / Real.sqrt ((Real.log (3 / 2) + 1) ^ 2 + 1), wA_pos,
      scenarioA_search⟩

/-- Witness for C4 amended: on `corpus2`, the single-term query "banana" has
accumulator equal to the term's posting list, whose keys follow corpus
order. -/
theorem C4_amended_witness :
    queryTerms "banana" = ["banana"] ∧
    dictGet "banana" (invertedIndex corpus2) = some [("doc2", (1 : ℝ))] ∧
    (dictKeys [("doc2", (1 : ℝ))]).Nodup ∧
    accumulate (invertedIndex corpus2) (queryTerms "banana") =
      [("doc2", (1 : ℝ))] ∧
    List.Sublist (dictKeys [("doc2", (1 : ℝ))]) (dictKeys corpus2) := by
  have hget : dictGet "banana" (invertedIndex corpus2) =
      some [("doc2", (1 : ℝ))] := by
    rw [invertedIndex_corpus2]
    simp [dictGet]
  refine ⟨rfl, hget, by simp [dictKeys], ?_, ?_⟩
  · exact C4_amended.2.2.1 (invertedIndex corpus2) "banana" "banana"
      [("doc2", (1 : ℝ))] rfl hget (by simp [dictKeys])
  · exact C4_amended.2.2.2.1 corpus2 "banana" [("doc2", (1 : ℝ))] hget

/-- C5 counterexample: building from the empty corpus does not produce an
empty index — the vectorizer raises the empty-vocabulary `ValueError`. -/
theorem C5_counterexample : index_data [] = Except.error
    "empty vocabulary; perhaps the documents only contain stop words" := rfl

/-- C5 amended: building from any corpus whose vocabulary is empty after
tokenization and stop-word filtering (in particular the empty corpus) raises
the empty-vocabulary error instead of producing an empty index; querying a
loaded empty index returns the empty sequence for every query and `k`. -/
theorem C5_amended :
    (∀ c : Corpus, vocab c = [] → index_data c = Except.error
      "empty vocabulary; perhaps the documents only contain stop words") ∧
    (∀ (q : String) (k : Int), get_top_k_results ([] : InvIndex ℝ) q k = []) := by
  constructor
  · intro c hc
    rw [index_data, if_pos hc]
  · intro q k
    have hfold : ∀ ts : List String,
        ts.foldl (termStep ([] : InvIndex ℝ)) [] = [] := by
      intro ts
      induction ts with
      | nil => rfl
      | cons t ts' ih =>
        rw [List.foldl_cons, show termStep ([] : InvIndex ℝ) [] t = [] from rfl]
        exact ih
    rw [get_top_k_results, accumulate, hfold, sortDesc, pySliceTo]
    split
    · exact List.take_nil
    · exact List.take_nil

/-- Witness for C5 amended: a corpus consisting of one all-stop-word document
has an empty vocabulary and the build errors out. -/
theorem C5_amended_witness :
    vocab [("doc1", "the")] = [] ∧ index_data [("doc1", "the")] = Except.error
      "empty vocabulary; perhaps the documents only contain stop words" :=
  ⟨by decide, C5_amended.1 [("doc1", "the")] (by decide)⟩

/-- C6: a term is a key of the built inverted index iff it occurs in some
document after tokenization and stop-word filtering, and (for the dict-shaped
corpus) a document key appears in a term's posting list iff the normalized
weight of that (term, document) pair is strictly positive. -/
theorem C6_index_invariants (c : Corpus) (t : String) :
    (t ∈ dictKeys (invertedIndex c) ↔ ∃ p ∈ c, t ∈ docTerms p.2) ∧
    (keysNodup c → ∀ d text, dictGet d c = some text →
      ((∃ posting, dictGet t (invertedIndex c) = some posting ∧
          d ∈ dictKeys posting) ↔ 0 < wOf c t text)) := by
  constructor
  · rw [dictKeys_invertedIndex]
    exact mem_vocab c t
  · intro hnd d text hd
    constructor
    · rintro ⟨posting, hpost, hdk⟩
      rw [dictGet_invertedIndex] at hpost
      by_cases ht : t ∈ vocab c
      · rw [if_pos ht] at hpost
        cases Option.some.inj hpost
        rcases (mem_dictKeys_iff d _).mp hdk with ⟨v, hv⟩
        rw [dictGet_postingOf c t d hnd, hd, Option.some_bind] at hv
        by_cases hw : 0 < wOf c t text
        · exact hw
        · rw [if_neg hw] at hv; cases hv
      · rw [if_neg ht] at hpost; cases hpost
    · intro hw
      have htm : t ∈ docTerms text := mem_docTerms_of_wOf_pos hw
      have hmem : (d, text) ∈ c := dictGet_some_mem hd
      have ht : t ∈ vocab c := (mem_vocab c t).mpr ⟨(d, text), hmem, htm⟩
      refine ⟨postingOf c t, by rw [dictGet_invertedIndex, if_pos ht], ?_⟩
      apply (mem_dictKeys_iff d _).mpr
      refine ⟨wOf c t text, ?_⟩
      rw [dictGet_postingOf c t d hnd, hd, Option.some_bind, if_pos hw]

/-- Witness for C6 on `corpus2` at term "apple" and document "doc1". -/
theorem C6_index_invariants_witness :
    keysNodup corpus2 ∧ dictGet "doc1" corpus2 = some "apple" ∧
    ((∃ posting, dictGet "apple" (invertedIndex corpus2) = some posting ∧
        "doc1" ∈ dictKeys posting) ↔ 0 < wOf corpus2 "apple" "apple") :=
  ⟨by decide, by decide,
    (C6_index_invariants corpus2 "apple").2 (by decide) "doc1" "apple" (by decide)⟩

/-- C7 counterexample: query-time tokenization is not identical to document
tokenization — "banana." stays one token "banana." at query time while the
document tokenizer strips the punctuation and yields "banana". -/
theorem C7_counterexample :
    queryTerms "banana." = ["banana."] ∧ docTerms "banana." = ["banana"] ∧
    queryTerms "banana." ≠ docTerms "banana." := by decide

/-- C7 amended: query tokenization only lowercases and splits on whitespace
runs (no word-boundary split, no length or stop-word filtering); it agrees
with document tokenization exactly on queries that are blank-separated
sequences of lowercase word-character tokens of length ≥ 2 outside the stop
list. -/
theorem C7_amended (ws : List String)
    (h : ∀ w ∈ ws, w.toList ≠ [] ∧ 2 ≤ w.toList.length ∧
      (∀ ch ∈ w.toList, wordChar ch = true ∧ ch.toLower = ch) ∧
      englishStopWords.contains w = false) :
    queryTerms (joinWords ws) = ws ∧ docTerms (joinWords ws) = ws := by
  have hlower : (joinChars (ws.map String.toList)).map Char.toLower =
      joinChars (ws.map String.toList) := by
    apply map_toLower_joinChars
    intro w hw ch hch
    rcases List.mem_map.mp hw with ⟨w', hw', rfl⟩
    exact ((h w' hw').2.2.1 ch hch).2
  have htoList : (joinWords ws).toList = joinChars (ws.map String.toList) := rfl
  have hws : ∀ w ∈ ws.map String.toList, w ≠ [] ∧
      ∀ ch ∈ w, wordChar ch = true := by
    intro w hw
    rcases List.mem_map.mp hw with ⟨w', hw', rfl⟩
    exact ⟨(h w' hw').1, fun ch hch => ((h w' hw').2.2.1 ch hch).1⟩
  have hmk : (ws.map String.toList).map (fun r => String.mk r) = ws := by
    rw [List.map_map]
    have hid : ((fun r => String.mk r) ∘ String.toList) = id := rfl
    rw [hid, List.map_id]
  constructor
  · rw [queryTerms, htoList, hlower]
    rw [runs_join (fun c => !pyWhitespace c) rfl (ws.map String.toList)
      (fun w hw => ⟨(hws w hw).1, fun ch hch => by
        simp [pyWhitespace_of_wordChar ((hws w hw).2 ch hch)]⟩)]
    exact hmk
  · rw [docTerms, docTokens, htoList, hlower]
    rw [runs_join wordChar (by decide) (ws.map String.toList) hws]
    have hfl : (ws.map String.toList).filter (fun r => 2 ≤ r.length) =
        ws.map String.toList := by
      apply List.filter_eq_self.mpr
      intro a ha
      rcases List.mem_map.mp ha with ⟨w', hw', rfl⟩
      exact decide_eq_true (h w' hw').2.1
    rw [hfl, hmk]
    apply List.filter_eq_self.mpr
    intro w hw
    rw [(h w hw).2.2.2]
    rfl

/-- Witness for C7 amended on the word list ["apple", "banana"]. -/
theorem C7_amended_witness :
    (∀ w ∈ ["apple", "banana"], w.toList ≠ [] ∧ 2 ≤ w.toList.length ∧
      (∀ ch ∈ w.toList, wordChar ch = true ∧ ch.toLower = ch) ∧
      englishStopWords.contains w = false) ∧
    queryTerms (joinWords ["apple", "banana"]) = ["apple", "banana"] ∧
    docTerms (joinWords ["apple", "banana"]) = ["apple", "banana"] :=
  ⟨by decide, (C7_amended ["apple", "banana"] (by decide)).1,
    (C7_amended ["apple", "banana"] (by decide)).2⟩

/-- C8: deserializing the serialized artifact reconstructs the index exactly,
term → document key → weight structure preserved, for every index including
the empty one. -/
theorem C8_roundtrip (idx : InvIndex ℝ) :
    deserializeIndex (serializeIndex idx) = Except.ok idx := by
  rw [serializeIndex, deserializeIndex]
  exact readIndex_map idx

/-- C9: for every `k ≥ 0`, a query none of whose tokens is an index key — in
particular any query against an index with no entries — returns the empty
sequence (and, being a total function, never raises). -/
theorem C9_empty_results {α : Type} [LinearOrder α] [Add α] :
    (∀ (data : InvIndex α) (q : String) (k : Int), 0 ≤ k →
      (∀ t ∈ queryTerms q, dictGet t data = none) →
      get_top_k_results data q k = []) ∧
    (∀ (q : String) (k : Int), 0 ≤ k →
      get_top_k_results ([] : InvIndex α) q k = []) := by
  have main : ∀ (data : InvIndex α) (q : String) (k : Int),
      (∀ t ∈ queryTerms q, dictGet t data = none) →
      get_top_k_results data q k = [] := by
    intro data q k hq
    have hacc : ∀ ts : List String, (∀ t ∈ ts, dictGet t data = none) →
        ts.foldl (termStep data) [] = [] := by
      intro ts
      induction ts with
      | nil => intro _; rfl
      | cons t ts' ih =>
        intro hts
        rw [List.foldl_cons,
          show termStep data ([] : List (String × α)) t = [] from by
            rw [termStep, hts t (List.mem_cons_self t ts')]]
        exact ih (fun x hx => hts x (List.mem_cons_of_mem _ hx))
    rw [get_top_k_results, accumulate, hacc _ hq, sortDesc, pySliceTo]
    split
    · exact List.take_nil
    · exact List.take_nil
  exact ⟨fun data q k _ hq => main data q k hq,
    fun q k _ => main [] q k (fun t _ => rfl)⟩

/-- Witness for C9: the Scenario C style query "xyz" misses the index and
returns the empty sequence. -/
theorem C9_empty_results_witness :
    ((0 : Int) ≤ 5) ∧
    (∀ t ∈ queryTerms "xyz", dictGet t [("apple", [("doc1", (1 : ℤ))])] = none) ∧
    get_top_k_results [("apple", [("doc1", (1 : ℤ))])] "xyz" 5 = [] :=
  ⟨by decide, by decide,
    (C9_empty_results).1 [("apple", [("doc1", (1 : ℤ))])] "xyz" 5
      (by decide) (by decide)⟩

/-- C10: when every stored posting weight is strictly positive (as in any
index built by the indexer), every returned (document, score) pair has a
strictly positive score and its document shares at least one query term with
the index — a document with no query term in common never appears, for any
`k`. -/
theorem C10_positive_scores {α : Type} [LinearOrderedAddCommGroup α]
    (data : InvIndex α) (q : String) (k : Int)
    (hdata : ∀ td ∈ data, ∀ e ∈ td.2, 0 < e.2) :
    ∀ e ∈ get_top_k_results data q k, 0 < e.2 ∧
      ∃ t ∈ queryTerms q, ∃ p, dictGet t data = some p ∧ e.1 ∈ dictKeys p := by
  intro e he
  exact accumulate_inv data (queryTerms q) hdata e
    ((mem_sortDesc e _).mp (mem_pySliceTo he))

/-- Witness for C10 at a one-entry index: the returned pair ("doc1", 1) has a
positive score and "doc1" occurs in the matched posting list. -/
theorem C10_positive_scores_witness :
    (∀ td ∈ [("banana", [("doc1", (1 : ℤ))])], ∀ e ∈ td.2, 0 < e.2) ∧
    (("doc1", (1 : ℤ)) ∈
      get_top_k_results [("banana", [("doc1", (1 : ℤ))])] "banana" 1) ∧
    (0 < (("doc1", (1 : ℤ))).2 ∧ ∃ t ∈ queryTerms "banana", ∃ p,
      dictGet t [("banana", [("doc1", (1 : ℤ))])] = some p ∧
        "doc1" ∈ dictKeys p) :=
  ⟨by decide, by decide,
    C10_positive_scores [("banana", [("doc1", (1 : ℤ))])] "banana" 1
      (by decide) ("doc1", (1 : ℤ)) (by decide)⟩

end Catalog
